import Mathlib

/-!
Shallow embedding of the market-data core of `src/main.py` (Stocker).

Numeric modelling conventions:
* Python floats are modelled as rationals (`ℚ`).
* The format spec `+.2f` applied to a value `v`, followed by re-parsing the
  resulting string as a float (source line 189), denotes rounding `v` to two
  decimal places; this is `round2` below.  Likewise `round(x, 2)`.
* Calendar dates are modelled as day numbers with a Monday epoch, so that the
  weekday of day `d` is `d % 7` (Python: `Monday = 0 .. Sunday = 6`), and the
  weekend test `weekday >= 5` is `d % 7 ≥ 5`.
* `random.uniform a b` returns `a + (b - a) * t` for a unit draw `t ∈ [0, 1]`
  (this is exactly how CPython implements it); the draws are explicit inputs.
-/

/-- Rounding a value to two decimal places; denotation of the source format
spec `+.2f` (and of `round(x, 2)`). -/
def round2 (q : ℚ) : ℚ := (round (q * 100) : ℚ) / 100

/-- Evaluation rule for `round2` at concrete inputs. -/
theorem round2_eval (q : ℚ) (z : ℤ) (h1 : (z : ℚ) ≤ q * 100 + 1/2) (h2 : q * 100 + 1/2 < z + 1) :
    round2 q = (z : ℚ) / 100 := by
  unfold round2
  rw [round_eq, Int.floor_eq_iff.mpr ⟨h1, h2⟩]

theorem round2_mono {a b : ℚ} (h : a ≤ b) : round2 a ≤ round2 b := by
  unfold round2
  have hf : round (a * 100) ≤ round (b * 100) := by
    rw [round_eq, round_eq]
    exact Int.floor_mono (by linarith)
  have : ((round (a * 100) : ℤ) : ℚ) ≤ ((round (b * 100) : ℤ) : ℚ) := by exact_mod_cast hf
  linarith

/-! ### Stable sorting by key

`sortAscBy key` models Python `sorted(l, key=key)` and `sortDescBy key` models
`sorted(l, key=key, reverse=True)`: both are stable (elements with equal keys
keep their input order; `reverse=True` does not reverse equal elements). -/

def insertAscBy {α β : Type} [LinearOrder β] (key : α → β) (x : α) : List α → List α
  | [] => [x]
  | y :: ys => if key x ≤ key y then x :: y :: ys else y :: insertAscBy key x ys

def sortAscBy {α β : Type} [LinearOrder β] (key : α → β) : List α → List α
  | [] => []
  | x :: xs => insertAscBy key x (sortAscBy key xs)

def sortDescBy {α β : Type} [LinearOrder β] (key : α → β) : List α → List α :=
  sortAscBy (fun a => OrderDual.toDual (key a))

theorem insertAscBy_perm {α β : Type} [LinearOrder β] (key : α → β) (x : α) :
    ∀ l : List α, List.Perm (insertAscBy key x l) (x :: l)
  | [] => List.Perm.refl _
  | y :: ys => by
      simp only [insertAscBy]
      split
      · exact List.Perm.refl _
      · exact ((insertAscBy_perm key x ys).cons y).trans (List.Perm.swap x y ys)

theorem sortAscBy_perm {α β : Type} [LinearOrder β] (key : α → β) :
    ∀ l : List α, List.Perm (sortAscBy key l) l
  | [] => List.Perm.refl _
  | x :: xs => (insertAscBy_perm key x _).trans ((sortAscBy_perm key xs).cons x)

theorem sortDescBy_perm {α β : Type} [LinearOrder β] (key : α → β) (l : List α) :
    List.Perm (sortDescBy key l) l :=
  sortAscBy_perm _ l

theorem pairwise_insertAscBy {α β : Type} [LinearOrder β] (key : α → β) (x : α) :
    ∀ l : List α, l.Pairwise (fun a b => key a ≤ key b) →
      (insertAscBy key x l).Pairwise (fun a b => key a ≤ key b)
  | [], _ => by simp [insertAscBy]
  | y :: ys, h => by
      rcases List.pairwise_cons.mp h with ⟨hy, hys⟩
      simp only [insertAscBy]
      split
      case isTrue hxy =>
        refine List.pairwise_cons.mpr ⟨?_, h⟩
        intro z hz
        rcases List.mem_cons.mp hz with rfl | hz'
        · exact hxy
        · exact le_trans hxy (hy z hz')
      case isFalse hxy =>
        refine List.pairwise_cons.mpr ⟨?_, pairwise_insertAscBy key x ys hys⟩
        intro z hz
        rcases List.mem_cons.mp ((insertAscBy_perm key x ys).mem_iff.mp hz) with rfl | hz'
        · exact le_of_not_le hxy
        · exact hy z hz'

theorem sorted_sortAscBy {α β : Type} [LinearOrder β] (key : α → β) :
    ∀ l : List α, (sortAscBy key l).Pairwise (fun a b => key a ≤ key b)
  | [] => by simp [sortAscBy]
  | x :: xs => pairwise_insertAscBy key x _ (sorted_sortAscBy key xs)

theorem sorted_sortDescBy {α β : Type} [LinearOrder β] (key : α → β) (l : List α) :
    (sortDescBy key l).Pairwise (fun a b => key b ≤ key a) :=
  sorted_sortAscBy (fun a => OrderDual.toDual (key a)) l

theorem insertAscBy_congr {α β : Type} [LinearOrder β] (k1 k2 : α → β) (x : α) :
    ∀ l : List α, (∀ b ∈ l, (k1 x ≤ k1 b ↔ k2 x ≤ k2 b)) →
      insertAscBy k1 x l = insertAscBy k2 x l
  | [], _ => rfl
  | y :: ys, h => by
      simp only [insertAscBy]
      by_cases hxy : k1 x ≤ k1 y
      · rw [if_pos hxy, if_pos ((h y (List.mem_cons_self y ys)).mp hxy)]
      · rw [if_neg hxy, if_neg (fun hc => hxy ((h y (List.mem_cons_self y ys)).mpr hc)),
          insertAscBy_congr k1 k2 x ys (fun b hb => h b (List.mem_cons_of_mem y hb))]

theorem sortAscBy_congr {α β : Type} [LinearOrder β] (k1 k2 : α → β) :
    ∀ l : List α, (∀ a ∈ l, ∀ b ∈ l, (k1 a ≤ k1 b ↔ k2 a ≤ k2 b)) →
      sortAscBy k1 l = sortAscBy k2 l
  | [], _ => rfl
  | x :: xs, h => by
      have hxs : sortAscBy k1 xs = sortAscBy k2 xs :=
        sortAscBy_congr k1 k2 xs
          (fun a ha b hb => h a (List.mem_cons_of_mem x ha) b (List.mem_cons_of_mem x hb))
      simp only [sortAscBy]
      rw [hxs]
      exact insertAscBy_congr k1 k2 x _ (fun b hb =>
        h x (List.mem_cons_self x xs) b
          (List.mem_cons_of_mem x ((sortAscBy_perm k2 xs).mem_iff.mp hb)))

/-! ### Counting lemmas used for the top-N overlap analysis -/

theorem countP_lt_of_mem_take_sortedDesc {α β : Type} [LinearOrder β] (key : α → β) {m : α} :
    ∀ (l : List α) (n : ℕ), l.Pairwise (fun a b => key b ≤ key a) → m ∈ l.take n →
      l.countP (fun x => decide (key m < key x)) < n
  | [], n, _, hm => by simp at hm
  | a :: t, 0, _, hm => by simp at hm
  | a :: t, n + 1, hp, hm => by
      rcases List.pairwise_cons.mp hp with ⟨ha, ht⟩
      rw [List.take_succ_cons] at hm
      rcases List.mem_cons.mp hm with rfl | hm'
      · have hz : t.countP (fun x => decide (key m < key x)) = 0 :=
          List.countP_eq_zero.mpr (fun x hx => by simp [not_lt_of_le (ha x hx)])
        simp [List.countP_cons, hz]
      · have := countP_lt_of_mem_take_sortedDesc key t n ht hm'
        rw [List.countP_cons]
        split <;> omega

theorem countP_lt_of_mem_take_sortedAsc {α β : Type} [LinearOrder β] (key : α → β) {m : α} :
    ∀ (l : List α) (n : ℕ), l.Pairwise (fun a b => key a ≤ key b) → m ∈ l.take n →
      l.countP (fun x => decide (key x < key m)) < n
  | [], n, _, hm => by simp at hm
  | a :: t, 0, _, hm => by simp at hm
  | a :: t, n + 1, hp, hm => by
      rcases List.pairwise_cons.mp hp with ⟨ha, ht⟩
      rw [List.take_succ_cons] at hm
      rcases List.mem_cons.mp hm with rfl | hm'
      · have hz : t.countP (fun x => decide (key x < key m)) = 0 :=
          List.countP_eq_zero.mpr (fun x hx => by simp [not_lt_of_le (ha x hx)])
        simp [List.countP_cons, hz]
      · have := countP_lt_of_mem_take_sortedAsc key t n ht hm'
        rw [List.countP_cons]
        split <;> omega

theorem countP_trichotomy {α β : Type} [LinearOrder β] (key : α → β) (c : β) :
    ∀ l : List α,
      l.countP (fun x => decide (c < key x)) + l.countP (fun x => decide (key x < c))
        + l.countP (fun x => decide (key x = c)) = l.length
  | [] => by simp
  | a :: l => by
      have ih := countP_trichotomy key c l
      rcases lt_trichotomy (key a) c with h | h | h
      · simp only [List.countP_cons, decide_eq_true_eq, List.length_cons]
        rw [if_neg (by simp [not_lt_of_lt h]), if_pos (by simp [h]),
          if_neg (by simp [ne_of_lt h])]
        omega
      · simp only [List.countP_cons, decide_eq_true_eq, List.length_cons]
        rw [if_neg (by simp [h]), if_neg (by simp [h]), if_pos (by simp [h])]
        omega
      · simp only [List.countP_cons, decide_eq_true_eq, List.length_cons]
        rw [if_pos (by simp [h]), if_neg (by simp [not_lt_of_lt h]),
          if_neg (by simp [ne_of_gt h])]
        omega

theorem countP_key_eq_one {α β : Type} [LinearOrder β] (key : α → β) {m : α} :
    ∀ l : List α, (l.map key).Nodup → m ∈ l →
      l.countP (fun x => decide (key x = key m)) = 1
  | [], _, hm => by simp at hm
  | a :: t, hnd, hm => by
      rw [List.map_cons, List.nodup_cons] at hnd
      rcases hnd with ⟨hka, hndt⟩
      rcases List.mem_cons.mp hm with rfl | hm'
      · have hz : t.countP (fun x => decide (key x = key m)) = 0 :=
          List.countP_eq_zero.mpr (fun x hx => by
            simp only [decide_eq_true_eq]
            intro hkx
            exact hka (hkx ▸ List.mem_map_of_mem key hx))
        simp [List.countP_cons, hz]
      · have hne : ¬ key a = key m := fun hc =>
          hka (hc ▸ List.mem_map_of_mem key hm')
        have := countP_key_eq_one key t hndt hm'
        simp [List.countP_cons, hne, this]

/-! ### Quote data model

`YfInfo` models the best-effort bag of fields returned by `yf.Ticker(sym).info`;
every field may be absent (`none`).  `FetchOutcome.err` models the fetch raising
an exception. -/

structure YfInfo where
  currentPrice : Option ℚ
  regularMarketPrice : Option ℚ
  previousClose : Option ℚ
  regularMarketChange : Option ℚ
  regularMarketChangePercent : Option ℚ
  volume : Option ℕ
  marketCap : Option ℕ
  sector : Option String
  longName : Option String
deriving DecidableEq

inductive FetchOutcome where
  | err : String → FetchOutcome
  | ok : YfInfo → FetchOutcome

/-- Python truthiness of an optional float: `None` and `0` are falsy. -/
def truthy : Option ℚ → Bool
  | none => false
  | some q => q != 0

/-- Thousands separator formatting of a natural number, the format spec of
source line 173 (digits are grouped in threes from the right by commas). -/
def commasRev : ℕ → List Char → List Char
  | _, [] => []
  | i, c :: cs =>
      if i ≠ 0 ∧ i % 3 = 0 then ',' :: c :: commasRev (i + 1) cs
      else c :: commasRev (i + 1) cs

def commas (n : ℕ) : String :=
  ⟨(commasRev 0 (Nat.toDigits 10 n).reverse).reverse⟩

/-- One entry of the `movers` list built by `get_market_movers` (source lines
175 to 184).  `changePercent` holds the exact numeric percent change; the
stored display string (format spec `+.2f` plus a percent sign) denotes
`round2 changePercent`. -/
structure Mover where
  symbol : String
  name : String
  price : ℚ
  change : ℚ
  changePercent : ℚ
  volume : ℕ
  marketCap : String
  sector : String
deriving DecidableEq

/-- Source lines 161 to 186: per-symbol body of the universe loop.  A raised
exception is logged and skipped (`none`); the `if price and prev_close:` gate
uses Python truthiness, so an absent or zero price or previous close also
yields `none`. -/
def moverOf (sym : String) (out : FetchOutcome) : Option Mover :=
  match out with
  | .err _ => none
  | .ok info =>
      match info.regularMarketPrice, info.previousClose with
      | some price, some prev_close =>
          if price ≠ 0 ∧ prev_close ≠ 0 then
            let change_percent := (price - prev_close) / prev_close * 100
            let change := price - prev_close
            let market_cap_raw := info.marketCap.getD 0
            let market_cap := if market_cap_raw ≠ 0 then commas market_cap_raw else "N/A"
            some { symbol := sym
                 , name := info.longName.getD sym
                 , price := round2 price
                 , change := round2 change
                 , changePercent := change_percent
                 , volume := info.volume.getD 0
                 , marketCap := market_cap
                 , sector := info.sector.getD "N/A" }
          else none
      | _, _ => none

/-- The fixed stock universe of `get_market_movers` (source lines 156 to 158). -/
def stockUniverse : List String :=
  ["AAPL", "MSFT", "TSLA", "NFLX", "GOOGL", "AMZN", "META", "NVDA", "INTC",
   "AMD", "PYPL", "ADBE", "CRM", "UBER", "LYFT", "SPOT", "SHOP", "SQ", "ZM", "DOCU",
   "MRNA", "RIOT", "AMC", "GME", "PLTR", "PLUG", "BBBY", "WISH", "CLOV", "SPCE"]

/-- The `movers` list accumulated by the universe loop, given the per-symbol
fetch outcomes. -/
def fetchMovers (outcomes : String → FetchOutcome) : List Mover :=
  stockUniverse.filterMap (fun sym => moverOf sym (outcomes sym))

/-- The ranking key the source actually uses (line 189): the formatted percent
string is re-parsed as a float, which denotes the percent change rounded to two
decimals. -/
def parseKey (m : Mover) : ℚ := round2 m.changePercent

/-- A ranked snapshot: the `result` dict of source line 192. -/
structure Snapshot where
  gainers : List Mover
  losers : List Mover
deriving DecidableEq

/-- Source lines 188 to 192: sort the movers by the re-parsed percent string,
descending for gainers and ascending for losers, and keep the first `n`. -/
def rankMovers (n : ℕ) (movers : List Mover) : Snapshot :=
  { gainers := (sortDescBy parseKey movers).take n
  , losers := (sortAscBy parseKey movers).take n }

/-- Ranker that follows the words of the spec instead (sections 3 and 9): the
canonical numeric change-percent is the sort key, the formatted string being a
pure display derivative.  Used only to compare against `rankMovers`. -/
def specKey (m : Mover) : ℚ := m.changePercent

/-- Spec-side ranker, for the refinement comparison of claim C9. -/
def rankMoversSpec (n : ℕ) (movers : List Mover) : Snapshot :=
  { gainers := (sortDescBy specKey movers).take n
  , losers := (sortAscBy specKey movers).take n }

/-! ### Snapshot cache -/

/-- The global `market_movers_cache` dict: `data` is `None` until first filled. -/
structure CacheState where
  data : Option Snapshot
  timestamp : ℚ
deriving DecidableEq

/-- Source line 20: cache for 5 minutes (300 seconds). -/
def CACHE_DURATION : ℚ := 5 * 60

/-- Result of one `get_market_movers` call: the returned snapshot, the cache
state after the call, and whether the universe fetch ran. -/
structure CallResult where
  result : Snapshot
  cache : CacheState
  fetched : Bool
deriving DecidableEq

/-- Source lines 143 to 198: serve the cached snapshot while `data` is truthy
and younger than `CACHE_DURATION`; otherwise fetch the whole universe, rank it,
store it with the current time and return it. -/
def get_market_movers (n : ℕ) (st : CacheState) (current_time : ℚ)
    (outcomes : String → FetchOutcome) : CallResult :=
  match st.data with
  | some snap =>
      if current_time - st.timestamp < CACHE_DURATION then
        ⟨snap, st, false⟩
      else
        let result := rankMovers n (fetchMovers outcomes)
        ⟨result, ⟨some result, current_time⟩, true⟩
  | none =>
      let result := rankMovers n (fetchMovers outcomes)
      ⟨result, ⟨some result, current_time⟩, true⟩


/-! ### Historical data (source lines 342 to 412)

Dates are day numbers with a Monday epoch: the weekday of day `d` is `d % 7`
and the weekend test `weekday() >= 5` becomes `d % 7 ≥ 5`.  The ISO date
strings of the source sort exactly like these day numbers. -/

/-- One value of the upstream `Time Series (Daily)` map. -/
structure DayData where
  openP : ℚ
  high : ℚ
  low : ℚ
  close : ℚ
  volume : ℕ
deriving DecidableEq

/-- One element of the returned `historical_data` list. -/
structure HistPoint where
  date : ℕ
  openP : ℚ
  high : ℚ
  low : ℚ
  close : ℚ
  volume : ℕ
deriving DecidableEq

/-- Real-data branch (source lines 355 to 372): take the 126 most recent dates
of the time-series map, then emit them in chronological order.  `keys` are the
map keys (distinct in a Python dict) and `ts` the lookup. -/
def realHistorical (keys : List ℕ) (ts : ℕ → DayData) : List HistPoint :=
  let sorted_dates := (sortDescBy id keys).take 126
  sorted_dates.reverse.map (fun date =>
    let day_data := ts date
    ⟨date, day_data.openP, day_data.high, day_data.low, day_data.close, day_data.volume⟩)

/-- Unit draws feeding the synthetic generator, one of each per loop
iteration, in source order: the daily return draw, the high and low band
draws, the open and close draws, and the volume draw. -/
structure Draws where
  change : ℕ → ℚ
  hiD : ℕ → ℚ
  loD : ℕ → ℚ
  opD : ℕ → ℚ
  clD : ℕ → ℚ
  vol : ℕ → ℕ

/-- `random.uniform a b = a + (b - a) * t` for a unit draw `t`. -/
def unif (a b t : ℚ) : ℚ := a + (b - a) * t

/-- The unit draws lie in `[0, 1]` and `random.randint(500000, 5000000)` lies
in its inclusive range. -/
def ValidDraws (dr : Draws) : Prop :=
  ∀ i, 0 ≤ dr.change i ∧ dr.change i ≤ 1 ∧ 0 ≤ dr.hiD i ∧ dr.hiD i ≤ 1 ∧
    0 ≤ dr.loD i ∧ dr.loD i ≤ 1 ∧ 0 ≤ dr.opD i ∧ dr.opD i ≤ 1 ∧
    0 ≤ dr.clD i ∧ dr.clD i ≤ 1 ∧ 500000 ≤ dr.vol i ∧ dr.vol i ≤ 5000000

/-- The `while current_date.weekday() >= 5` loop (source lines 384 to 385),
unrolled: a Saturday advances two days, a Sunday one day. -/
def skipWeekend (d : ℕ) : ℕ :=
  if d % 7 = 5 then d + 2 else if d % 7 = 6 then d + 1 else d

/-- Synthetic-data loop body (source lines 382 to 406), `k` iterations left,
`i` the draw index, carrying `base_price` and `current_date`. -/
def syntheticGo (dr : Draws) : ℕ → ℕ → ℚ → ℕ → List HistPoint
  | 0, _, _, _ => []
  | k + 1, i, base_price, current_date =>
      let d := skipWeekend current_date
      let change := unif (-5/100) (5/100) (dr.change i)
      let bp := max (base_price * (1 + change)) 10
      let daily_volatility := bp * (2/100)
      let high := bp + unif 0 daily_volatility (dr.hiD i)
      let low := bp - unif 0 daily_volatility (dr.loD i)
      let open_price := low + unif 0 (high - low) (dr.opD i)
      let close_price := low + unif 0 (high - low) (dr.clD i)
      ⟨d, round2 open_price, round2 high, round2 low, round2 close_price, dr.vol i⟩
        :: syntheticGo dr k (i + 1) bp (d + 1)

/-- Synthetic fallback series: 126 trading-day points from a base price of
150.0, starting at day `start` (today minus 180 days). -/
def syntheticHistorical (start : ℕ) (dr : Draws) : List HistPoint :=
  syntheticGo dr 126 0 150 start

/-- Outcome of the upstream Alpha Vantage call: the request (or `.json()`)
raised, or returned a JSON body which may or may not hold the
`Time Series (Daily)` field. -/
inductive UpstreamResp where
  | raises : UpstreamResp
  | json : Option (List ℕ × (ℕ → DayData)) → UpstreamResp

/-- Source lines 342 to 412: the real branch when the field is present, the
synthetic fallback when the body lacks it, and `None` when the request raised
(the `except` clause at lines 410 to 412). -/
def get_historical_data (resp : UpstreamResp) (start : ℕ) (dr : Draws) :
    Option (List HistPoint) :=
  match resp with
  | .raises => none
  | .json (some ts) => some (realHistorical ts.1 ts.2)
  | .json none => some (syntheticHistorical start dr)

/-! ### Single-quote paths -/

/-- The record returned by `get_stock_data` on success (source lines 35 to
42); `change_percent` holds the numeric denotation of the formatted percent
string. -/
structure StockData where
  symbol : String
  price : ℚ
  change : ℚ
  change_percent : ℚ
  volume : ℕ
  last_updated : String
deriving DecidableEq

/-- Return value of `get_stock_data`: the error-tagged dict of line 44, or the
quote dict of lines 35 to 42. -/
inductive StockDataResult where
  | error : String → StockDataResult
  | ok : StockData → StockDataResult
deriving DecidableEq

/-- Whether the result carries the `error` tag that callers check. -/
def StockDataResult.isError : StockDataResult → Bool
  | .error _ => true
  | .ok _ => false

/-- Source lines 29 to 44: absent fields default to zero; only a raised
exception produces the error-tagged result. -/
def get_stock_data (symbol : String) (out : FetchOutcome) (today : String) :
    StockDataResult :=
  match out with
  | .err e => .error e
  | .ok info =>
      .ok { symbol := symbol.toUpper
          , price := info.currentPrice.getD 0
          , change := info.regularMarketChange.getD 0
          , change_percent := round2 (info.regularMarketChangePercent.getD 0)
          , volume := info.volume.getD 0
          , last_updated := today }

/-- The dict returned by `fetch_quote`; `none` fields model keys absent from
the dict (the failure record of line 476 has only `symbol` and `price`). -/
structure FetchQuoteRecord where
  symbol : String
  name : Option String
  price : Option ℚ
  change : Option ℚ
  change_percent : Option ℚ
  volume : Option ℕ
  market_cap : Option ℕ
  sector : Option String
  as_of : Option String
deriving DecidableEq

/-- Source lines 455 to 476.  `res` is `none` when anything in the `try`
raised; otherwise it carries the last close of the one-day history (absent
when the history is empty) and the info map.  The success record keeps
`price = None` for an empty or zero close (`float(price) if price else
None`). -/
def fetch_quote (sym : String) (res : Option (Option ℚ × YfInfo)) (as_of : String) :
    FetchQuoteRecord :=
  match res with
  | none => { symbol := sym, name := none, price := none, change := none
            , change_percent := none, volume := none, market_cap := none
            , sector := none, as_of := none }
  | some (histClose, info) =>
      { symbol := sym
      , name := some (info.longName.getD sym)
      , price := if truthy histClose then histClose else none
      , change := some (info.regularMarketChange.getD 0)
      , change_percent := some (info.regularMarketChangePercent.getD 0)
      , volume := some (info.volume.getD 0)
      , market_cap := some (info.marketCap.getD 0)
      , sector := some (info.sector.getD "N/A")
      , as_of := some as_of }

/-! ### Interleaving model for concurrent cache access

Each request handler performs two atomic steps against the shared cache, as
the source does: first read the cache dict, then either return the observed
fresh snapshot or recompute and write.  A schedule interleaves the steps of
two callers A and B. -/

inductive Phase where
  | ready : Phase
  | checked : CacheState → Phase
  | done : Snapshot → Phase
deriving DecidableEq

/-- One atomic step of one caller: read the shared cache, or act on the state
it observed (returning the cached snapshot, or fetching the universe and
overwriting the shared cache). -/
def callerStep (n : ℕ) (current_time : ℚ) (outcomes : String → FetchOutcome)
    (shared : CacheState) (p : Phase) : CacheState × Phase × ℕ :=
  match p with
  | .ready => (shared, .checked shared, 0)
  | .checked obs =>
      match obs.data with
      | some snap =>
          if current_time - obs.timestamp < CACHE_DURATION then
            (shared, .done snap, 0)
          else
            let result := rankMovers n (fetchMovers outcomes)
            (⟨some result, current_time⟩, .done result, 1)
      | none =>
          let result := rankMovers n (fetchMovers outcomes)
          (⟨some result, current_time⟩, .done result, 1)
  | .done r => (shared, .done r, 0)

/-- Shared cache plus the two callers and a fetch counter. -/
structure World where
  cache : CacheState
  pa : Phase
  pb : Phase
  fetches : ℕ

/-- Run a schedule: `true` steps caller A, `false` steps caller B. -/
def runSched (n : ℕ) (current_time : ℚ) (outcomes : String → FetchOutcome) :
    List Bool → World → World
  | [], w => w
  | c :: cs, w =>
      let s := callerStep n current_time outcomes w.cache (if c then w.pa else w.pb)
      runSched n current_time outcomes cs
        (if c then ⟨s.1, s.2.1, w.pb, w.fetches + s.2.2⟩
         else ⟨s.1, w.pa, s.2.1, w.fetches + s.2.2⟩)

/-! ### Helper lemmas about the embedded operations -/

theorem length_syntheticGo (dr : Draws) :
    ∀ (k i : ℕ) (bp : ℚ) (cur : ℕ), (syntheticGo dr k i bp cur).length = k
  | 0, _, _, _ => rfl
  | k + 1, i, bp, cur => by
      simp only [syntheticGo, List.length_cons, length_syntheticGo dr k]

theorem get_market_movers_fresh (n : ℕ) (st : CacheState) (t : ℚ)
    (o : String → FetchOutcome) (snap : Snapshot) (hd : st.data = some snap)
    (h : t - st.timestamp < CACHE_DURATION) :
    get_market_movers n st t o = ⟨snap, st, false⟩ := by
  obtain ⟨d, ts⟩ := st
  obtain rfl : d = some snap := hd
  show (if t - ts < CACHE_DURATION then (⟨snap, ⟨some snap, ts⟩, false⟩ : CallResult)
        else ⟨rankMovers n (fetchMovers o),
              ⟨some (rankMovers n (fetchMovers o)), t⟩, true⟩)
      = ⟨snap, ⟨some snap, ts⟩, false⟩
  exact if_pos h

/-- whether a per-symbol outcome makes it through both the exception guard and
the `if price and prev_close:` truthiness gate. -/
def survives (out : FetchOutcome) : Bool :=
  match out with
  | .err _ => false
  | .ok info =>
      match info.regularMarketPrice, info.previousClose with
      | some p, some pc => decide (p ≠ 0 ∧ pc ≠ 0)
      | _, _ => false

theorem isSome_moverOf (sym : String) (out : FetchOutcome) :
    (moverOf sym out).isSome = survives out := by
  cases out with
  | err e => rfl
  | ok info =>
      cases hp : info.regularMarketPrice with
      | none => simp [moverOf, survives, hp]
      | some p =>
          cases hpc : info.previousClose with
          | none => simp [moverOf, survives, hp, hpc]
          | some pc =>
              by_cases h : p ≠ 0 ∧ pc ≠ 0
              · simp [moverOf, survives, hp, hpc, h]
              · simp [moverOf, survives, hp, hpc, h]

theorem moverOf_symbol (sym : String) (out : FetchOutcome) (m : Mover)
    (h : moverOf sym out = some m) : m.symbol = sym := by
  unfold moverOf at h
  split at h
  · exact Option.noConfusion h
  · split at h
    · split at h
      · injection h with h2
        subst h2
        rfl
      · exact Option.noConfusion h
    · exact Option.noConfusion h

theorem map_filterMap_symbol (outcomes : String → FetchOutcome) :
    ∀ l : List String,
      (l.filterMap (fun sym => moverOf sym (outcomes sym))).map Mover.symbol
        = l.filter (fun sym => survives (outcomes sym))
  | [] => rfl
  | a :: l => by
      have ih := map_filterMap_symbol outcomes l
      cases hma : moverOf a (outcomes a) with
      | none =>
          have hs : survives (outcomes a) = false := by
            rw [← isSome_moverOf a, hma]
            rfl
          simp [List.filterMap_cons, List.filter_cons, hma, hs, ih]
      | some m =>
          have hs : survives (outcomes a) = true := by
            rw [← isSome_moverOf a, hma]
            rfl
          have hsym := moverOf_symbol a (outcomes a) m hma
          simp [List.filterMap_cons, List.filter_cons, hma, hs, ih, hsym]

/-! ### Claim C5 -/

/-- C5: while a stored snapshot is younger than the 300-second TTL, any two
`get_market_movers` calls both return exactly the stored snapshot, leave the
cache state untouched, and perform no universe fetch. -/
theorem cache_fresh_idempotent (n₁ n₂ : ℕ) (st : CacheState) (t₁ t₂ : ℚ)
    (o₁ o₂ : String → FetchOutcome) (snap : Snapshot) (hd : st.data = some snap)
    (h₁ : t₁ - st.timestamp < CACHE_DURATION) (h₂ : t₂ - st.timestamp < CACHE_DURATION) :
    get_market_movers n₁ st t₁ o₁ = ⟨snap, st, false⟩
  ∧ get_market_movers n₂ st t₂ o₂ = ⟨snap, st, false⟩ :=
  ⟨get_market_movers_fresh n₁ st t₁ o₁ snap hd h₁,
   get_market_movers_fresh n₂ st t₂ o₂ snap hd h₂⟩

theorem cache_fresh_idempotent_witness :
    get_market_movers 20 ⟨some ⟨[], []⟩, 0⟩ 10 (fun _ => .err "e")
      = ⟨⟨[], []⟩, ⟨some ⟨[], []⟩, 0⟩, false⟩
  ∧ get_market_movers 20 ⟨some ⟨[], []⟩, 0⟩ 299 (fun _ => .err "e")
      = ⟨⟨[], []⟩, ⟨some ⟨[], []⟩, 0⟩, false⟩ :=
  cache_fresh_idempotent 20 20 ⟨some ⟨[], []⟩, 0⟩ 10 299 (fun _ => .err "e")
    (fun _ => .err "e") ⟨[], []⟩ rfl (by norm_num [CACHE_DURATION])
    (by norm_num [CACHE_DURATION])

/-! ### Claim C6 -/

/-- C6 (amended): sequentially, a call that observes a stale cache performs
exactly one universe fetch and stores the new snapshot, and a following call
within the TTL performs none — but there is no single-flight guard (see the
counterexample): each caller recomputes per stale observation. -/
theorem cache_stale_single_recompute (n : ℕ) (st : CacheState) (now t₂ : ℚ)
    (o o₂ : String → FetchOutcome) (hstale : CACHE_DURATION ≤ now - st.timestamp)
    (h₂ : t₂ - now < CACHE_DURATION) :
    get_market_movers n st now o
      = ⟨rankMovers n (fetchMovers o), ⟨some (rankMovers n (fetchMovers o)), now⟩, true⟩
  ∧ get_market_movers n ⟨some (rankMovers n (fetchMovers o)), now⟩ t₂ o₂
      = ⟨rankMovers n (fetchMovers o), ⟨some (rankMovers n (fetchMovers o)), now⟩, false⟩ := by
  constructor
  · obtain ⟨d, ts⟩ := st
    cases d with
    | none => rfl
    | some snap =>
        show (if now - ts < CACHE_DURATION then (⟨snap, ⟨some snap, ts⟩, false⟩ : CallResult)
              else ⟨rankMovers n (fetchMovers o),
                    ⟨some (rankMovers n (fetchMovers o)), now⟩, true⟩) = _
        exact if_neg (not_lt.mpr hstale)
  · exact get_market_movers_fresh n _ t₂ o₂ _ rfl h₂

theorem cache_stale_single_recompute_witness :
    get_market_movers 20 ⟨some ⟨[], []⟩, 0⟩ 300 (fun _ => .err "e")
      = ⟨rankMovers 20 (fetchMovers (fun _ => .err "e")),
         ⟨some (rankMovers 20 (fetchMovers (fun _ => .err "e"))), 300⟩, true⟩
  ∧ get_market_movers 20 ⟨some (rankMovers 20 (fetchMovers (fun _ => .err "e"))), 300⟩
      400 (fun _ => .err "e")
      = ⟨rankMovers 20 (fetchMovers (fun _ => .err "e")),
         ⟨some (rankMovers 20 (fetchMovers (fun _ => .err "e"))), 300⟩, false⟩ :=
  cache_stale_single_recompute 20 ⟨some ⟨[], []⟩, 0⟩ 300 400 (fun _ => .err "e")
    (fun _ => .err "e") (by norm_num [CACHE_DURATION]) (by norm_num [CACHE_DURATION])

def cxOutcomes : String → FetchOutcome := fun _ => .err "boom"

def w0 : World := ⟨⟨some ⟨[], []⟩, 0⟩, .ready, .ready, 0⟩

/-- C6 counterexample: with a stale cache, two concurrent callers that both
read the cache before either writes (schedule: A reads, B reads, A acts, B
acts) each perform their own universe fetch — two recomputations, not one. -/
theorem concurrent_double_fetch_cx :
    (runSched 20 300 cxOutcomes [true, false, true, false] w0).fetches = 2 := by
  simp only [runSched, callerStep, w0]
  norm_num [CACHE_DURATION]

/-! ### Claim C2 -/

/-- C2 (amended): a response body lacking the `Time Series (Daily)` field
produces the synthetic 126-point series; but a raised request error or timeout
produces `None` (an error), not the fallback. -/
theorem historical_fallback_shape (start : ℕ) (dr : Draws) :
    get_historical_data (.json none) start dr = some (syntheticHistorical start dr)
  ∧ (syntheticHistorical start dr).length = 126
  ∧ get_historical_data .raises start dr = none :=
  ⟨rfl, length_syntheticGo dr 126 0 150 start, rfl⟩

def zeroDraws : Draws :=
  ⟨fun _ => 0, fun _ => 0, fun _ => 0, fun _ => 0, fun _ => 0, fun _ => 500000⟩

/-- C2 counterexample: when the upstream request raises (request error or
timeout), `get_historical_data` returns `None`, not a synthetic series. -/
theorem historical_raises_none_cx :
    get_historical_data .raises 0 zeroDraws = none := rfl

/-! ### Claim C7 -/

/-- C7: the batch passed to the ranker holds exactly one quote per surviving
symbol, in universe order (a surviving symbol is one whose fetch does not
raise and whose price and previous close pass the truthiness gate); and when
every symbol raises, the batch and both ranked lists are empty — the function
completes with no escalated error. -/
theorem universe_fetch_skips_failures (outcomes : String → FetchOutcome) :
    (fetchMovers outcomes).map Mover.symbol
      = stockUniverse.filter (fun sym => survives (outcomes sym))
  ∧ ((∀ sym ∈ stockUniverse, ∃ e, outcomes sym = .err e) →
       fetchMovers outcomes = [] ∧ ∀ n, rankMovers n (fetchMovers outcomes) = ⟨[], []⟩) := by
  refine ⟨map_filterMap_symbol outcomes stockUniverse, ?_⟩
  intro hall
  have hnil : fetchMovers outcomes = [] := by
    unfold fetchMovers
    refine List.filterMap_eq_nil_iff.mpr (fun a ha => ?_)
    obtain ⟨e, he⟩ := hall a ha
    rw [he]
    rfl
  refine ⟨hnil, fun n => ?_⟩
  rw [hnil]
  simp [rankMovers, sortDescBy, sortAscBy]

theorem universe_fetch_skips_failures_witness :
    fetchMovers (fun _ => .err "boom") = []
  ∧ rankMovers 20 (fetchMovers (fun _ => .err "boom")) = ⟨[], []⟩ :=
  ⟨((universe_fetch_skips_failures (fun _ => .err "boom")).2 (fun _ _ => ⟨"boom", rfl⟩)).1,
   ((universe_fetch_skips_failures (fun _ => .err "boom")).2 (fun _ _ => ⟨"boom", rfl⟩)).2 20⟩

/-! ### Claim C10 -/

/-- C10: a symbol contributes a mover exactly when the fetch did not raise and
both the market price and the previous close are present and non-zero; every
contributed mover has its percent change computed as
`(price - prev_close) / prev_close * 100` with a non-zero divisor, and a zero
or absent price or previous close is silently dropped. -/
theorem mover_requires_nonzero (sym : String) (out : FetchOutcome) :
    ((moverOf sym out).isSome = true ↔
      ∃ info p pc, out = .ok info ∧ info.regularMarketPrice = some p
        ∧ info.previousClose = some pc ∧ p ≠ 0 ∧ pc ≠ 0)
  ∧ (∀ m, moverOf sym out = some m →
      ∃ info p pc, out = .ok info ∧ info.regularMarketPrice = some p
        ∧ info.previousClose = some pc ∧ p ≠ 0 ∧ pc ≠ 0
        ∧ m.changePercent = (p - pc) / pc * 100) := by
  cases out with
  | err e =>
      constructor
      · constructor
        · intro h
          simp [moverOf] at h
        · rintro ⟨info, p, pc, h, -⟩
          exact FetchOutcome.noConfusion h
      · intro m hm
        simp [moverOf] at hm
  | ok info =>
      cases hp : info.regularMarketPrice with
      | none =>
          constructor
          · constructor
            · intro h
              simp [moverOf, hp] at h
            · rintro ⟨info2, p, pc, h, hp2, -⟩
              obtain rfl : info = info2 := by injection h
              rw [hp] at hp2
              exact Option.noConfusion hp2
          · intro m hm
            simp [moverOf, hp] at hm
      | some p =>
          cases hpc : info.previousClose with
          | none =>
              constructor
              · constructor
                · intro h
                  simp [moverOf, hp, hpc] at h
                · rintro ⟨info2, p2, pc, h, hp2, hpc2, -⟩
                  obtain rfl : info = info2 := by injection h
                  rw [hpc] at hpc2
                  exact Option.noConfusion hpc2
              · intro m hm
                simp [moverOf, hp, hpc] at hm
          | some pc =>
              by_cases h : p ≠ 0 ∧ pc ≠ 0
              · constructor
                · exact ⟨fun _ => ⟨info, p, pc, rfl, hp, hpc, h.1, h.2⟩,
                    fun _ => by simp [moverOf, hp, hpc, h]⟩
                · intro m hm
                  refine ⟨info, p, pc, rfl, hp, hpc, h.1, h.2, ?_⟩
                  simp only [moverOf, hp, hpc] at hm
                  rw [if_pos h] at hm
                  injection hm with h2
                  subst h2
                  rfl
              · have hfalse : (moverOf sym (.ok info)).isSome = false := by
                  rw [isSome_moverOf]
                  simp [survives, hp, hpc, h]
                constructor
                · constructor
                  · intro hs
                    rw [hfalse] at hs
                    exact Bool.noConfusion hs
                  · rintro ⟨info2, p2, pc2, heq, hp2, hpc2, hne1, hne2⟩
                    obtain rfl : info = info2 := by injection heq
                    rw [hp] at hp2
                    rw [hpc] at hpc2
                    obtain rfl : p = p2 := by injection hp2
                    obtain rfl : pc = pc2 := by injection hpc2
                    exact (h ⟨hne1, hne2⟩).elim
                · intro m hm
                  simp only [moverOf, hp, hpc] at hm
                  rw [if_neg h] at hm
                  exact Option.noConfusion hm

def okInfo : YfInfo := ⟨none, some 110, some 100, none, none, none, none, none, none⟩

theorem mover_requires_nonzero_witness :
    ∃ info p pc, FetchOutcome.ok okInfo = .ok info
      ∧ info.regularMarketPrice = some p ∧ info.previousClose = some pc
      ∧ p ≠ 0 ∧ pc ≠ 0
      ∧ (⟨"AAPL", "AAPL", round2 110, round2 10, 10, 0, "N/A", "N/A"⟩ : Mover).changePercent
          = (p - pc) / pc * 100 := by
  refine (mover_requires_nonzero "AAPL" (.ok okInfo)).2
    ⟨"AAPL", "AAPL", round2 110, round2 10, 10, 0, "N/A", "N/A"⟩ ?_
  show (if (110 : ℚ) ≠ 0 ∧ (100 : ℚ) ≠ 0 then
          some (⟨"AAPL", "AAPL", round2 110, round2 ((110 : ℚ) - 100),
            ((110 : ℚ) - 100) / 100 * 100, 0, "N/A", "N/A"⟩ : Mover)
        else none)
      = some (⟨"AAPL", "AAPL", round2 110, round2 10, 10, 0, "N/A", "N/A"⟩ : Mover)
  rw [if_pos (⟨by norm_num, by norm_num⟩ : (110 : ℚ) ≠ 0 ∧ (100 : ℚ) ≠ 0)]
  norm_num

/-! ### Claim C8 -/

/-- C8 (amended): `get_stock_data` returns the error-tagged result exactly
when the fetch raises; a fetch that succeeds with missing fields yields an
untagged record with zero defaults.  `fetch_quote` signals failure only
through a bare record whose `price` is `None` — the same `price = None` a
successful call produces for an empty or zero one-day history. -/
theorem quote_error_tagging (sym e today as_of : String) (info inf2 : YfInfo)
    (hc : Option ℚ) :
    get_stock_data sym (.err e) today = .error e
  ∧ (get_stock_data sym (.ok info) today).isError = false
  ∧ get_stock_data sym (.ok info) today
      = .ok ⟨sym.toUpper, info.currentPrice.getD 0, info.regularMarketChange.getD 0,
             round2 (info.regularMarketChangePercent.getD 0), info.volume.getD 0, today⟩
  ∧ fetch_quote sym none as_of = ⟨sym, none, none, none, none, none, none, none, none⟩
  ∧ ((fetch_quote sym (some (hc, inf2)) as_of).price = none ↔ truthy hc = false) := by
  refine ⟨rfl, rfl, rfl, rfl, ?_⟩
  by_cases h : truthy hc
  · cases hc with
    | none => simp [truthy] at h
    | some q => simp [fetch_quote, h]
  · simp [fetch_quote, h]

def emptyInfo : YfInfo := ⟨none, none, none, none, none, none, none, none, none⟩

/-- C8 counterexample: a fetch that succeeds but yields no usable fields is
returned as an untagged, zero-valued quote record — a "successful" result,
with no error tag for callers to check. -/
theorem zero_quote_success_cx :
    get_stock_data "zzzz" (.ok emptyInfo) "2026-10-12"
      = .ok ⟨"zzzz".toUpper, 0, 0, 0, 0, "2026-10-12"⟩
  ∧ (get_stock_data "zzzz" (.ok emptyInfo) "2026-10-12").isError = false := by
  have h0 : round2 0 = 0 := by
    unfold round2
    norm_num
  refine ⟨?_, rfl⟩
  show StockDataResult.ok ⟨"zzzz".toUpper, 0, 0, round2 0, 0, "2026-10-12"⟩ = _
  rw [h0]

/-! ### Claim C1 -/

/-- C1 (amended): both ranked lists have at most `n` elements and are sorted
(descending, respectively ascending) by the re-parsed two-decimal
change-percent key; the two lists are disjoint whenever the batch holds at
least `2 n` quotes with pairwise distinct ranking keys, but may overlap
otherwise (see the counterexample). -/
theorem marketMovers_ranking (n : ℕ) (movers : List Mover) :
    (rankMovers n movers).gainers.length ≤ n
  ∧ (rankMovers n movers).losers.length ≤ n
  ∧ (rankMovers n movers).gainers.Pairwise (fun a b => parseKey b ≤ parseKey a)
  ∧ (rankMovers n movers).losers.Pairwise (fun a b => parseKey a ≤ parseKey b)
  ∧ ((movers.map parseKey).Nodup → 2 * n ≤ movers.length →
      ∀ m ∈ (rankMovers n movers).gainers, m ∉ (rankMovers n movers).losers) := by
  refine ⟨?_, ?_, ?_, ?_, ?_⟩
  · simp only [rankMovers]
    rw [List.length_take]
    exact min_le_left _ _
  · simp only [rankMovers]
    rw [List.length_take]
    exact min_le_left _ _
  · exact List.Pairwise.sublist (List.take_sublist _ _) (sorted_sortDescBy parseKey movers)
  · exact List.Pairwise.sublist (List.take_sublist _ _) (sorted_sortAscBy parseKey movers)
  · intro hnd hlen m hg hl
    simp only [rankMovers] at hg hl
    have h1 := countP_lt_of_mem_take_sortedDesc parseKey _ n
      (sorted_sortDescBy parseKey movers) hg
    have h2 := countP_lt_of_mem_take_sortedAsc parseKey _ n
      (sorted_sortAscBy parseKey movers) hl
    rw [(sortDescBy_perm parseKey movers).countP_eq] at h1
    rw [(sortAscBy_perm parseKey movers).countP_eq] at h2
    have hm : m ∈ movers :=
      (sortDescBy_perm parseKey movers).mem_iff.mp ((List.take_sublist _ _).subset hg)
    have h3 := countP_key_eq_one parseKey movers hnd hm
    have h4 := countP_trichotomy parseKey (parseKey m) movers
    omega

theorem take_one_sortDescBy_pair {α : Type} (key : α → ℚ) (x y : α) (h : key y ≤ key x) :
    (sortDescBy key [x, y]).take 1 = [x] := by
  have e : sortDescBy key [x, y]
      = insertAscBy (fun a => OrderDual.toDual (key a)) x [y] := rfl
  rw [e]
  simp only [insertAscBy]
  split
  · rfl
  · next hc => exact absurd h hc

theorem take_one_sortDescBy_pair_snd {α : Type} (key : α → ℚ) (x y : α)
    (h : ¬ key y ≤ key x) : (sortDescBy key [x, y]).take 1 = [y] := by
  have e : sortDescBy key [x, y]
      = insertAscBy (fun a => OrderDual.toDual (key a)) x [y] := rfl
  rw [e]
  simp only [insertAscBy]
  split
  · next hc => exact absurd hc h
  · rfl

theorem take_one_sortAscBy_pair {α : Type} (key : α → ℚ) (x y : α) (h : key x ≤ key y) :
    (sortAscBy key [x, y]).take 1 = [x] := by
  have e : sortAscBy key [x, y] = insertAscBy key x [y] := rfl
  rw [e]
  simp only [insertAscBy]
  split
  · rfl
  · next hc => exact absurd h hc

def qOnly : Mover := ⟨"AAPL", "Apple Inc.", 100, 5, 5, 45000000, "N/A", "Technology"⟩

/-- C1 counterexample: with one fetched quote and target count 1, the same
quote appears in both the gainers list and the losers list. -/
theorem marketMovers_overlap_cx :
    qOnly ∈ (rankMovers 1 [qOnly]).gainers ∧ qOnly ∈ (rankMovers 1 [qOnly]).losers :=
  ⟨List.mem_cons_self _ _, List.mem_cons_self _ _⟩

def qG : Mover := ⟨"AAPL", "Apple Inc.", 100, 5, 5, 0, "N/A", "Technology"⟩

def qL : Mover := ⟨"TSLA", "Tesla Inc.", 50, -3, -3, 0, "N/A", "Consumer Cyclical"⟩

theorem round2_five : round2 (5 : ℚ) = 5 := by
  rw [round2_eval 5 500 (by norm_num) (by norm_num)]
  norm_num

theorem round2_negthree : round2 (-3 : ℚ) = -3 := by
  rw [round2_eval (-3) (-300) (by norm_num) (by norm_num)]
  norm_num

theorem marketMovers_ranking_witness : qG ∉ (rankMovers 1 [qG, qL]).losers := by
  have hnd : ([qG, qL].map parseKey).Nodup := by
    have : [qG, qL].map parseKey = [round2 5, round2 (-3)] := rfl
    rw [this, round2_five, round2_negthree]
    simp
    norm_num
  have hg : qG ∈ (rankMovers 1 [qG, qL]).gainers := by
    have hcmp : parseKey qL ≤ parseKey qG := by
      show round2 (-3 : ℚ) ≤ round2 5
      rw [round2_five, round2_negthree]
      norm_num
    have e : (rankMovers 1 [qG, qL]).gainers = (sortDescBy parseKey [qG, qL]).take 1 := rfl
    rw [e, take_one_sortDescBy_pair parseKey qG qL hcmp]
    exact List.mem_cons_self _ _
  exact (marketMovers_ranking 1 [qG, qL]).2.2.2.2 hnd (by norm_num) qG hg

/-! ### Claim C9 -/

/-- C9 (amended): sorting by the re-parsed display string agrees with sorting
by the exact numeric change-percent — so the snapshot depends only on the
numeric values — provided rounding to two decimals identifies no two distinct
change-percent values of the batch; otherwise the two rankings can differ
(see the counterexample). -/
theorem rank_key_refinement (n : ℕ) (movers : List Mover)
    (hinj : ∀ a ∈ movers, ∀ b ∈ movers,
      round2 a.changePercent = round2 b.changePercent →
        a.changePercent = b.changePercent) :
    rankMovers n movers = rankMoversSpec n movers := by
  have hiff : ∀ a ∈ movers, ∀ b ∈ movers,
      (parseKey a ≤ parseKey b ↔ specKey a ≤ specKey b) := by
    intro a ha b hb
    constructor
    · intro hle
      by_contra hlt
      push_neg at hlt
      have hmono := round2_mono hlt.le
      exact absurd (hinj a ha b hb (le_antisymm hle hmono)) (ne_of_gt hlt)
    · exact fun hle => round2_mono hle
  have hg : sortDescBy parseKey movers = sortDescBy specKey movers :=
    sortAscBy_congr _ _ movers (fun a ha b hb => hiff b hb a ha)
  have hl : sortAscBy parseKey movers = sortAscBy specKey movers :=
    sortAscBy_congr _ _ movers hiff
  unfold rankMovers rankMoversSpec
  rw [hg, hl]

def qA : Mover := ⟨"AAPL", "Apple Inc.", 100, 1, 1001/1000, 0, "N/A", "Technology"⟩

def qB : Mover := ⟨"MSFT", "Microsoft Corp.", 100, 1, 1004/1000, 0, "N/A", "Technology"⟩

/-- C9 counterexample: two quotes whose exact change-percents 1.001 and 1.004
round to the same two-decimal display value: the source ranking (stable on the
re-parsed equal keys) keeps input order and picks the first quote as top
gainer, while ranking by the exact numeric values picks the second. -/
theorem rank_key_mismatch_cx :
    (rankMovers 1 [qA, qB]).gainers ≠ (rankMoversSpec 1 [qA, qB]).gainers := by
  have e1 : round2 (1001/1000 : ℚ) = 1 := by
    rw [round2_eval (1001/1000) 100 (by norm_num) (by norm_num)]
    norm_num
  have e2 : round2 (1004/1000 : ℚ) = 1 := by
    rw [round2_eval (1004/1000) 100 (by norm_num) (by norm_num)]
    norm_num
  have hg : (rankMovers 1 [qA, qB]).gainers = [qA] := by
    have hcmp : parseKey qB ≤ parseKey qA := by
      show round2 (1004/1000 : ℚ) ≤ round2 (1001/1000 : ℚ)
      rw [e1, e2]
    have e : (rankMovers 1 [qA, qB]).gainers = (sortDescBy parseKey [qA, qB]).take 1 := rfl
    rw [e, take_one_sortDescBy_pair parseKey qA qB hcmp]
  have hs : (rankMoversSpec 1 [qA, qB]).gainers = [qB] := by
    have hcmp : ¬ (specKey qB ≤ specKey qA) := by
      show ¬ ((1004/1000 : ℚ) ≤ 1001/1000)
      norm_num
    have e : (rankMoversSpec 1 [qA, qB]).gainers = (sortDescBy specKey [qA, qB]).take 1 := rfl
    rw [e, take_one_sortDescBy_pair_snd specKey qA qB hcmp]
  rw [hg, hs]
  intro h
  have h2 : qA = qB := by injection h
  have h3 : qA.symbol = qB.symbol := congrArg Mover.symbol h2
  exact absurd h3 (by decide)

theorem rank_key_refinement_witness :
    rankMovers 3 [qG, qL] = rankMoversSpec 3 [qG, qL] := by
  refine rank_key_refinement 3 [qG, qL] ?_
  intro a ha b hb h
  have ha2 : a = qG ∨ a = qL := by simpa using ha
  have hb2 : b = qG ∨ b = qL := by simpa using hb
  rcases ha2 with rfl | rfl <;> rcases hb2 with rfl | rfl
  · rfl
  · exfalso
    have h2 : round2 (5 : ℚ) = round2 (-3 : ℚ) := h
    rw [round2_five, round2_negthree] at h2
    norm_num at h2
  · exfalso
    have h2 : round2 (-3 : ℚ) = round2 (5 : ℚ) := h
    rw [round2_five, round2_negthree] at h2
    norm_num at h2
  · rfl

/-! ### Claim C3 -/

theorem round2_49_5 : round2 (49/5 : ℚ) = 49/5 := by
  rw [round2_eval (49/5) 980 (by norm_num) (by norm_num)]
  norm_num

theorem unif_mem {a b t : ℚ} (hab : a ≤ b) (h0 : 0 ≤ t) (h1 : t ≤ 1) :
    a ≤ unif a b t ∧ unif a b t ≤ b := by
  unfold unif
  constructor
  · nlinarith
  · nlinarith

theorem syntheticGo_bounds (dr : Draws) (hdr : ValidDraws dr) :
    ∀ (k i : ℕ) (bp : ℚ) (cur : ℕ), ∀ p ∈ syntheticGo dr k i bp cur,
      p.low ≤ p.openP ∧ p.openP ≤ p.high ∧ p.low ≤ p.close ∧ p.close ≤ p.high
        ∧ (49/5 : ℚ) ≤ p.close
  | 0, i, bp, cur => by
      intro p hp
      simp [syntheticGo] at hp
  | k + 1, i, bp, cur => by
      intro p hp
      simp only [syntheticGo] at hp
      rcases List.mem_cons.mp hp with rfl | hp'
      · obtain ⟨hc0, hc1, hh0, hh1, hl0, hl1, ho0, ho1, hcl0, hcl1, hv0, hv1⟩ := hdr i
        set bp2 := max (bp * (1 + unif (-5/100) (5/100) (dr.change i))) 10 with hbp2
        set uh := unif 0 (bp2 * (2/100)) (dr.hiD i) with huh
        set ul := unif 0 (bp2 * (2/100)) (dr.loD i) with hul
        set hi := bp2 + uh with hhi
        set lo := bp2 - ul with hlo
        set uo := unif 0 (hi - lo) (dr.opD i) with huo
        set uc := unif 0 (hi - lo) (dr.clD i) with huc
        have h10 : (10 : ℚ) ≤ bp2 := by
          rw [hbp2]
          exact le_max_right _ _
        have hdvnn : (0 : ℚ) ≤ bp2 * (2/100) := by nlinarith
        have huhb : 0 ≤ uh ∧ uh ≤ bp2 * (2/100) := huh ▸ unif_mem hdvnn hh0 hh1
        have hulb : 0 ≤ ul ∧ ul ≤ bp2 * (2/100) := hul ▸ unif_mem hdvnn hl0 hl1
        have hlohi : lo ≤ hi := by
          rw [hhi, hlo]
          linarith [huhb.1, hulb.1]
        have hsubnn : (0 : ℚ) ≤ hi - lo := by linarith
        have huob : 0 ≤ uo ∧ uo ≤ hi - lo := huo ▸ unif_mem hsubnn ho0 ho1
        have hucb : 0 ≤ uc ∧ uc ≤ hi - lo := huc ▸ unif_mem hsubnn hcl0 hcl1
        have hlo49 : (49/5 : ℚ) ≤ lo := by
          rw [hlo]
          linarith [hulb.2]
        refine ⟨?_, ?_, ?_, ?_, ?_⟩
        · exact round2_mono (by linarith [huob.1])
        · exact round2_mono (by linarith [huob.2])
        · exact round2_mono (by linarith [hucb.1])
        · exact round2_mono (by linarith [hucb.2])
        · have h := round2_mono (show (49/5 : ℚ) ≤ lo + uc by linarith [hucb.1])
          rw [round2_49_5] at h
          exact h
      · exact syntheticGo_bounds dr hdr k (i + 1) _ _ p hp'

/-- C3 (amended): every synthetic point satisfies
`low ≤ open ≤ high` and `low ≤ close ≤ high`, and `close ≥ 9.8` — the 10.0
floor applies to the running base price, not to the close, which can fall up
to the two-percent band below it (see the counterexample). -/
theorem synthetic_point_bounds (start : ℕ) (dr : Draws) (hdr : ValidDraws dr) :
    ∀ p ∈ syntheticHistorical start dr,
      p.low ≤ p.openP ∧ p.openP ≤ p.high ∧ p.low ≤ p.close ∧ p.close ≤ p.high
        ∧ (49/5 : ℚ) ≤ p.close :=
  syntheticGo_bounds dr hdr 126 0 150 start

theorem zeroDraws_valid : ValidDraws zeroDraws := by
  intro i
  norm_num [zeroDraws]

theorem synthetic_point_bounds_witness :
    ∃ p, p ∈ syntheticHistorical 0 zeroDraws ∧
      (p.low ≤ p.openP ∧ p.openP ≤ p.high ∧ p.low ≤ p.close ∧ p.close ≤ p.high
        ∧ (49/5 : ℚ) ≤ p.close) := by
  obtain ⟨pt, rest, hcons⟩ : ∃ pt rest, syntheticHistorical 0 zeroDraws = pt :: rest := by
    cases hX : syntheticHistorical 0 zeroDraws with
    | nil =>
        have hlen := length_syntheticGo zeroDraws 126 0 150 0
        rw [show syntheticGo zeroDraws 126 0 150 0 = syntheticHistorical 0 zeroDraws from rfl,
          hX] at hlen
        simp at hlen
    | cons a l => exact ⟨a, l, rfl⟩
  have hmem : pt ∈ syntheticHistorical 0 zeroDraws := by
    rw [hcons]
    exact List.mem_cons_self _ _
  exact ⟨pt, hmem, synthetic_point_bounds 0 zeroDraws zeroDraws_valid pt hmem⟩

theorem syntheticGo_cons (dr : Draws) (k i : ℕ) (bp bp2 dv hi lo op cl : ℚ) (cur : ℕ)
    (hbp2 : bp2 = max (bp * (1 + unif (-5/100) (5/100) (dr.change i))) 10)
    (hdv : dv = bp2 * (2/100))
    (hhi : hi = bp2 + unif 0 dv (dr.hiD i))
    (hlo : lo = bp2 - unif 0 dv (dr.loD i))
    (hop : op = lo + unif 0 (hi - lo) (dr.opD i))
    (hcl : cl = lo + unif 0 (hi - lo) (dr.clD i)) :
    syntheticGo dr (k + 1) i bp cur
      = ⟨skipWeekend cur, round2 op, round2 hi, round2 lo, round2 cl, dr.vol i⟩
          :: syntheticGo dr k (i + 1) bp2 (skipWeekend cur + 1) := by
  subst hcl
  subst hop
  subst hlo
  subst hhi
  subst hdv
  subst hbp2
  rfl

def cDraws : Draws :=
  ⟨fun _ => 0, fun _ => 0, fun _ => 1, fun _ => 0, fun _ => 0, fun _ => 500000⟩

theorem cDraws_cons_floor (k i : ℕ) (bp : ℚ) (cur : ℕ) (hb : bp * (19/20) ≤ 10) :
    syntheticGo cDraws (k + 1) i bp cur
      = ⟨skipWeekend cur, round2 (49/5), round2 10, round2 (49/5), round2 (49/5),
         cDraws.vol i⟩
          :: syntheticGo cDraws k (i + 1) 10 (skipWeekend cur + 1) := by
  have h1 : (10 : ℚ) = max (bp * (1 + unif (-5/100) (5/100) (cDraws.change i))) 10 := by
    rw [show bp * (1 + unif (-5/100) (5/100) (cDraws.change i)) = bp * (19/20) from by
      show bp * (1 + (-5/100 + (5/100 - -5/100) * 0)) = bp * (19/20)
      ring]
    exact (max_eq_right hb).symm
  have h2 : (1/5 : ℚ) = (10 : ℚ) * (2/100) := by norm_num
  have h3 : (10 : ℚ) = (10 : ℚ) + unif 0 (1/5) (cDraws.hiD i) := by
    show (10 : ℚ) = 10 + (0 + (1/5 - 0) * 0)
    norm_num
  have h4 : (49/5 : ℚ) = (10 : ℚ) - unif 0 (1/5) (cDraws.loD i) := by
    show (49/5 : ℚ) = 10 - (0 + (1/5 - 0) * 1)
    norm_num
  have h5 : (49/5 : ℚ) = (49/5 : ℚ) + unif 0 ((10 : ℚ) - 49/5) (cDraws.opD i) := by
    show (49/5 : ℚ) = 49/5 + (0 + ((10 : ℚ) - 49/5 - 0) * 0)
    norm_num
  have h6 : (49/5 : ℚ) = (49/5 : ℚ) + unif 0 ((10 : ℚ) - 49/5) (cDraws.clD i) := by
    show (49/5 : ℚ) = 49/5 + (0 + ((10 : ℚ) - 49/5 - 0) * 0)
    norm_num
  exact syntheticGo_cons cDraws k i bp 10 (1/5) 10 (49/5) (49/5) (49/5) cur h1 h2 h3 h4 h5 h6

theorem cDraws_cons_nofloor (k i : ℕ) (bp : ℚ) (cur : ℕ) (hb : 10 ≤ bp * (19/20)) :
    ∃ h, syntheticGo cDraws (k + 1) i bp cur
      = h :: syntheticGo cDraws k (i + 1) (bp * (19/20)) (skipWeekend cur + 1) := by
  have h1 : bp * (19/20) = max (bp * (1 + unif (-5/100) (5/100) (cDraws.change i))) 10 := by
    rw [show bp * (1 + unif (-5/100) (5/100) (cDraws.change i)) = bp * (19/20) from by
      show bp * (1 + (-5/100 + (5/100 - -5/100) * 0)) = bp * (19/20)
      ring]
    exact (max_eq_left hb).symm
  exact ⟨_, syntheticGo_cons cDraws k i bp (bp * (19/20)) (bp * (19/20) * (2/100)) _ _ _ _
    cur h1 rfl rfl rfl rfl rfl⟩

theorem syntheticGo_cDraws_low :
    ∀ (k i : ℕ) (bp : ℚ) (cur : ℕ), bp * ((19 : ℚ)/20) ^ (k + 1) ≤ 10 →
      ∃ p ∈ syntheticGo cDraws (k + 1) i bp cur, p.close = (49/5 : ℚ)
  | 0, i, bp, cur, hb => by
      rw [pow_one] at hb
      rw [cDraws_cons_floor 0 i bp cur hb]
      exact ⟨_, List.mem_cons_self _ _, round2_49_5⟩
  | k + 1, i, bp, cur, hb => by
      by_cases hb1 : bp * (19/20) ≤ 10
      · rw [cDraws_cons_floor (k + 1) i bp cur hb1]
        exact ⟨_, List.mem_cons_self _ _, round2_49_5⟩
      · obtain ⟨h, hstep⟩ := cDraws_cons_nofloor (k + 1) i bp cur (le_of_not_le hb1)
        rw [hstep]
        have hb2 : (bp * (19/20)) * ((19 : ℚ)/20) ^ (k + 1) ≤ 10 := by
          have he : (bp * (19/20)) * ((19 : ℚ)/20) ^ (k + 1)
              = bp * ((19 : ℚ)/20) ^ (k + 1 + 1) := by ring
          rw [he]
          exact hb
        obtain ⟨p, hp, hcl⟩ := syntheticGo_cDraws_low k (i + 1) (bp * (19/20))
          (skipWeekend cur + 1) hb2
        exact ⟨p, List.mem_cons_of_mem _ hp, hcl⟩

/-- C3 counterexample: a valid draw sequence (full daily losses until the base
price hits its 10.0 floor, then a full low-band draw with the close at the
low) produces a point whose close is 9.8, below 10.0. -/
theorem synthetic_close_below_ten_cx :
    ValidDraws cDraws ∧ ∃ p ∈ syntheticHistorical 0 cDraws, p.close < 10 := by
  constructor
  · intro i
    norm_num [cDraws]
  · obtain ⟨p, hp, hcl⟩ := syntheticGo_cDraws_low 125 0 150 0 (by norm_num)
    exact ⟨p, hp, by rw [hcl]; norm_num⟩

/-! ### Claim C4 -/

theorem le_skipWeekend (d : ℕ) : d ≤ skipWeekend d := by
  unfold skipWeekend
  split
  · omega
  · split
    · omega
    · omega

theorem skipWeekend_mod (d : ℕ) : skipWeekend d % 7 < 5 := by
  unfold skipWeekend
  split
  · next h => omega
  · split
    · next h => omega
    · next h1 h2 => omega

theorem syntheticGo_date_lb (dr : Draws) :
    ∀ (k i : ℕ) (bp : ℚ) (cur : ℕ), ∀ p ∈ syntheticGo dr k i bp cur, cur ≤ p.date
  | 0, i, bp, cur => by
      intro p hp
      simp [syntheticGo] at hp
  | k + 1, i, bp, cur => by
      intro p hp
      simp only [syntheticGo] at hp
      rcases List.mem_cons.mp hp with rfl | hp'
      · exact le_skipWeekend cur
      · have h1 := syntheticGo_date_lb dr k (i + 1) _ (skipWeekend cur + 1) p hp'
        have h2 := le_skipWeekend cur
        omega

theorem syntheticGo_dates_sorted (dr : Draws) :
    ∀ (k i : ℕ) (bp : ℚ) (cur : ℕ),
      ((syntheticGo dr k i bp cur).map HistPoint.date).Pairwise (· < ·)
  | 0, i, bp, cur => by simp [syntheticGo]
  | k + 1, i, bp, cur => by
      refine List.pairwise_cons.mpr ⟨fun b hb => ?_, ?_⟩
      · obtain ⟨p, hp, rfl⟩ := List.mem_map.mp hb
        show skipWeekend cur < p.date
        have h1 := syntheticGo_date_lb dr k (i + 1) _ (skipWeekend cur + 1) p hp
        omega
      · exact syntheticGo_dates_sorted dr k (i + 1) _ (skipWeekend cur + 1)

theorem syntheticGo_no_weekend (dr : Draws) :
    ∀ (k i : ℕ) (bp : ℚ) (cur : ℕ), ∀ p ∈ syntheticGo dr k i bp cur, p.date % 7 < 5
  | 0, i, bp, cur => by
      intro p hp
      simp [syntheticGo] at hp
  | k + 1, i, bp, cur => by
      intro p hp
      simp only [syntheticGo] at hp
      rcases List.mem_cons.mp hp with rfl | hp'
      · exact skipWeekend_mod cur
      · exact syntheticGo_no_weekend dr k (i + 1) _ (skipWeekend cur + 1) p hp'

theorem length_realHistorical (keys : List ℕ) (ts : ℕ → DayData) :
    (realHistorical keys ts).length = min 126 keys.length := by
  unfold realHistorical
  rw [List.length_map, List.length_reverse, List.length_take,
    (sortDescBy_perm id keys).length_eq]

theorem dates_realHistorical (keys : List ℕ) (ts : ℕ → DayData) :
    (realHistorical keys ts).map HistPoint.date = ((sortDescBy id keys).take 126).reverse := by
  unfold realHistorical
  rw [List.map_map]
  rw [show (HistPoint.date ∘ fun date =>
      ({ date := date, openP := (ts date).openP, high := (ts date).high,
         low := (ts date).low, close := (ts date).close,
         volume := (ts date).volume } : HistPoint)) = id from rfl]
  rw [List.map_id]

theorem realHistorical_sorted (keys : List ℕ) (ts : ℕ → DayData) (hnd : keys.Nodup) :
    ((realHistorical keys ts).map HistPoint.date).Pairwise (· < ·) := by
  rw [dates_realHistorical, List.pairwise_reverse]
  have hs := sorted_sortDescBy id keys
  have hn : (sortDescBy id keys).Nodup := (sortDescBy_perm id keys).nodup_iff.mpr hnd
  have hcomb := hs.and hn
  have hlt : (sortDescBy id keys).Pairwise (fun a b => b < a) :=
    hcomb.imp (fun {a b} h => lt_of_le_of_ne h.1 (Ne.symm h.2))
  exact List.Pairwise.sublist (List.take_sublist _ _) hlt

/-- C4 (amended): the synthetic series always has exactly 126 points in
strictly increasing date order with no weekend dates; the real-data series
instead has `min 126 (number of upstream dates)` points in strictly increasing
date order — exactly 126 points and weekend-freedom hold for it only when the
upstream data provides them (see the counterexample). -/
theorem historical_series_shape (start : ℕ) (dr : Draws) (keys : List ℕ)
    (ts : ℕ → DayData) (hnd : keys.Nodup) :
    (syntheticHistorical start dr).length = 126
  ∧ ((syntheticHistorical start dr).map HistPoint.date).Pairwise (· < ·)
  ∧ (∀ p ∈ syntheticHistorical start dr, p.date % 7 < 5)
  ∧ (realHistorical keys ts).length = min 126 keys.length
  ∧ ((realHistorical keys ts).map HistPoint.date).Pairwise (· < ·) :=
  ⟨length_syntheticGo dr 126 0 150 start,
   syntheticGo_dates_sorted dr 126 0 150 start,
   syntheticGo_no_weekend dr 126 0 150 start,
   length_realHistorical keys ts,
   realHistorical_sorted keys ts hnd⟩

def dd0 : DayData := ⟨1, 1, 1, 1, 1⟩

theorem historical_series_shape_witness :
    (syntheticHistorical 0 zeroDraws).length = 126
  ∧ ((syntheticHistorical 0 zeroDraws).map HistPoint.date).Pairwise (· < ·)
  ∧ (∀ p ∈ syntheticHistorical 0 zeroDraws, p.date % 7 < 5)
  ∧ (realHistorical [0, 1] (fun _ => dd0)).length = min 126 [0, 1].length
  ∧ ((realHistorical [0, 1] (fun _ => dd0)).map HistPoint.date).Pairwise (· < ·) :=
  historical_series_shape 0 zeroDraws [0, 1] (fun _ => dd0) (by decide)

/-- C4 counterexample: an upstream time series holding one entry dated on a
Saturday (day 5, Monday epoch) yields a returned series of one point — not
126 — whose date falls on a weekend. -/
theorem historical_real_short_cx :
    get_historical_data (.json (some ([5], fun _ => dd0))) 0 zeroDraws
      = some [⟨5, 1, 1, 1, 1, 1⟩]
  ∧ ([(⟨5, 1, 1, 1, 1, 1⟩ : HistPoint)].length = 1)
  ∧ (5 : ℕ) % 7 = 5 := ⟨rfl, rfl, rfl⟩
